import Mathlib

/-!
Verification of the rether scene-graph / GPU-buffer management layer.

This file gives a shallow embedding of the core subsystems of the
repository and proves properties of them:

* geometry containers (`src/model/geometry.rs`): `SimpleGeometry` and
  `IndexedGeometry` with the `expand` concatenation operation;
* the dynamic buffer allocator (`src/buffer/alloc.rs`):
  `BufferDynamicAllocator` with `allocate`, `free`, `send_action`,
  `update` and the handle records it registers;
* the tree model state machine (`src/model/tree.rs`): `TreeModel` with
  `Root`/`Node` variants, the `wake`/`destroy` lifecycle and the
  `translate`/`rotate`/`scale` operations that either mutate dormant
  geometry or enqueue `ModifyAction`s against a live handle.

Machine integers are modelled as `Nat` with an explicit `% 2 ^ 32`
where the source performs `as u32` casts or u32 arithmetic.  Rust
panics are modelled as an `Option String` component of the result
(`none` means normal return, `some msg` means the call panicked with
that message; mutations performed before the panic are retained, since
the Rust code mutates in place through locks before panicking).
Vector and quaternion components are modelled over `Int`: every claim
proved here is about control flow, bookkeeping and algebraic
composition structure, not about floating-point rounding.
-/

/-- Component-wise integer 3-vector, modelling glam::Vec3 for the purposes
of the bookkeeping claims (translation is component-wise addition, scale is
component-wise multiplication, exactly as in the source). -/
structure Vec3 where
  x : Int
  y : Int
  z : Int
deriving Repr, DecidableEq

/-- Component-wise addition, as in Vertex::translate / Translate for Transform. -/
def Vec3.add (a b : Vec3) : Vec3 :=
  ⟨a.x + b.x, a.y + b.y, a.z + b.z⟩

/-- Component-wise multiplication, as in Vertex::scale / Scale for Transform. -/
def Vec3.mulv (a b : Vec3) : Vec3 :=
  ⟨a.x * b.x, a.y * b.y, a.z * b.z⟩

/-- Quaternion with integer components, modelling glam::Quat for the
compositional structure of rotations (Hamilton product). -/
structure Quat where
  x : Int
  y : Int
  z : Int
  w : Int
deriving Repr, DecidableEq

/-- Hamilton product of quaternions, the composition used by
Rotate for Transform (self.rotation = rotation * self.rotation). -/
def Quat.mul (a b : Quat) : Quat :=
  ⟨a.w * b.x + a.x * b.w + a.y * b.z - a.z * b.y,
   a.w * b.y - a.x * b.z + a.y * b.w + a.z * b.x,
   a.w * b.z + a.x * b.y - a.y * b.x + a.z * b.w,
   a.w * b.w - a.x * b.x - a.y * b.y - a.z * b.z⟩

/-- Quaternion conjugate, used to define the rotation action on vectors. -/
def Quat.conj (q : Quat) : Quat :=
  ⟨-q.x, -q.y, -q.z, q.w⟩

/-- Action of a quaternion on a vector by conjugation (vector part of
q * (v, 0) * conj q), the integer counterpart of glam's rotation of a
Vec3 used by Vertex::rotate. -/
def rotVec (q : Quat) (v : Vec3) : Vec3 :=
  let p : Quat := ⟨v.x, v.y, v.z, 0⟩
  let r := q.mul (p.mul q.conj)
  ⟨r.x, r.y, r.z⟩

/-- Transform record from src/model/transform.rs: translation, rotation,
scale composed as deltas arrive. -/
structure Transform where
  translation : Vec3
  rotation : Quat
  scale : Vec3
deriving Repr, DecidableEq

/-- Default transform (identity), from the Default impl in transform.rs. -/
def Transform.identity : Transform :=
  ⟨⟨0, 0, 0⟩, ⟨0, 0, 0, 1⟩, ⟨1, 1, 1⟩⟩

/-- Translate for Transform: self.translation += translation. -/
def Transform.translate (t : Transform) (v : Vec3) : Transform :=
  { t with translation := t.translation.add v }

/-- Rotate for Transform: self.rotation = rotation * self.rotation
(the incoming delta is pre-multiplied). -/
def Transform.rotate (t : Transform) (q : Quat) : Transform :=
  { t with rotation := q.mul t.rotation }

/-- Scale for Transform: self.scale *= scale. -/
def Transform.scaleBy (t : Transform) (s : Vec3) : Transform :=
  { t with scale := t.scale.mulv s }

/-- SimpleGeometry from src/model/geometry.rs: a plain vertex list. -/
structure SimpleGeometry (T : Type) where
  vertices : List T
deriving Repr, DecidableEq

/-- Expandable for SimpleGeometry: extend vertices with the other list. -/
def SimpleGeometry.expand {T : Type} (g other : SimpleGeometry T) : SimpleGeometry T :=
  { vertices := g.vertices ++ other.vertices }

/-- Vertex count (Geometry::data_len). -/
def SimpleGeometry.dataLen {T : Type} (g : SimpleGeometry T) : Nat :=
  g.vertices.length

/-- IndexedGeometry from src/model/geometry.rs: vertices plus u32 indices
(indices modelled as Nat, with u32 wrap-around made explicit where the
source performs u32 arithmetic). -/
structure IndexedGeometry (T : Type) where
  vertices : List T
  indices : List Nat
deriving Repr, DecidableEq

/-- Expandable for IndexedGeometry, transcribed from the source:
first self.vertices.extend_from_slice(&other.vertices), THEN
let offset = self.vertices.len() as u32 (i.e. the length measured AFTER
the extension), then each incoming index is mapped to index + offset in
u32 arithmetic and appended. -/
def IndexedGeometry.expand {T : Type} (g other : IndexedGeometry T) : IndexedGeometry T :=
  let vs := g.vertices ++ other.vertices
  let offset := vs.length % 2 ^ 32
  { vertices := vs
    indices := g.indices ++ other.indices.map (fun i => (i + offset) % 2 ^ 32) }

/-- Vertex count (Geometry::data_len for IndexedGeometry). -/
def IndexedGeometry.dataLen {T : Type} (g : IndexedGeometry T) : Nat :=
  g.vertices.length

/-- C1: for IndexedGeometry values with vertex counts a and b,
expand-merging yields vertex count a + b (this part the code satisfies),
but the incoming indices are NOT shifted by a: the source computes the
shift as the vertex count measured after the append, so every incoming
index is shifted by a + b (as u32).  At the concrete failing input below
(a = 1, b = 1, incoming index 0) the code produces index 2, which is out
of range for the 2 resulting vertices, while the claim requires index 1.
This theorem evaluates the code at that input. -/
theorem c1_expand_shift_bug :
    let g : IndexedGeometry Nat := ⟨[10], []⟩
    let other : IndexedGeometry Nat := ⟨[20], [0]⟩
    let r := g.expand other
    r.vertices.length = 2 ∧ r.indices = [2] ∧
      (∀ i ∈ r.indices, ¬ i < r.vertices.length) ∧ r.indices ≠ [1] := by
  refine ⟨rfl, by decide, ?_, by decide⟩
  intro i hi
  simp [IndexedGeometry.expand] at hi
  simp [IndexedGeometry.expand, hi]

/-- Live-region record of a DynamicAllocHandle as registered in the
allocator (src/buffer/alloc.rs): current offset and size.  The atomics
and the destroyed flag are represented by the allocator owning the
authoritative record and by the destroy queue respectively. -/
structure HandleRec where
  offset : Nat
  size : Nat
deriving Repr, DecidableEq

/-- BufferAllocation record from src/buffer/alloc.rs. -/
structure BufferAllocation where
  offset : Nat
  size : Nat
deriving Repr, DecidableEq

/-- A ModifyAction as it travels through the queue: offset and size in
element space; the boxed closure is represented by a numeric tag so that
distinct sent actions stay distinguishable. -/
structure ActionRec where
  offset : Nat
  size : Nat
  tag : Nat
deriving Repr, DecidableEq

/-- State of a BufferDynamicAllocator: the id-to-handle map (modelled as
an association list with HashMap semantics: lookup/overwrite/remove by
key), the FIFO modify-action queue, the FIFO destroy-request queue, and
the running total size. -/
structure Allocator where
  packets : List (String × HandleRec)
  actionQueue : List ActionRec
  destroyQueue : List String
  size : Nat
deriving Repr, DecidableEq

/-- The Default allocator: empty map, empty queues, size 0. -/
def Allocator.empty : Allocator := ⟨[], [], [], 0⟩

/-- HashMap::get on the association list. -/
def findPacket (id : String) : List (String × HandleRec) → Option HandleRec
  | [] => none
  | p :: ps => if p.1 = id then some p.2 else findPacket id ps

/-- HashMap::insert on the association list: overwrite the existing
entry for the key if present, otherwise append. -/
def insertPacket (id : String) (h : HandleRec) :
    List (String × HandleRec) → List (String × HandleRec)
  | [] => [(id, h)]
  | p :: ps => if p.1 = id then (id, h) :: ps else p :: insertPacket id h ps

/-- HashMap::remove on the association list (keys are unique in any
reachable state, so removing the first match is removal of the entry). -/
def removePacket (id : String) :
    List (String × HandleRec) → List (String × HandleRec)
  | [] => []
  | p :: ps => if p.1 = id then ps else p :: removePacket id ps

/-- The compaction loop of free: every remaining packet whose offset is
greater than the removed offset has its offset decremented by the removed
size (DynamicAllocHandle::move_offset_left). -/
def shiftAfter (o s : Nat) (ps : List (String × HandleRec)) :
    List (String × HandleRec) :=
  ps.map (fun p => if o < p.2.offset then (p.1, ⟨p.2.offset - s, p.2.size⟩) else p)

/-- BufferDynamicAllocator::allocate: the new region starts at the current
total size, the total grows by the requested size, and the handle is
registered under the id (overwriting any live entry with the same id,
exactly as HashMap::insert does). -/
def Allocator.allocate (st : Allocator) (id : String) (sz : Nat) :
    HandleRec × Allocator :=
  let h : HandleRec := ⟨st.size, sz⟩
  (h, { st with
          packets := insertPacket id h st.packets
          size := st.size + sz })

/-- BufferDynamicAllocator::free: remove the record for the id if present;
subtract its size from the total; shift every remaining packet with a
strictly greater offset left by the removed size; send the id on the
destroy queue (remove_packet.destroy()); return the removed allocation. -/
def Allocator.free (st : Allocator) (id : String) :
    Option BufferAllocation × Allocator :=
  match findPacket id st.packets with
  | none => (none, st)
  | some h =>
      (some ⟨h.offset, h.size⟩,
       { st with
           packets := shiftAfter h.offset h.size (removePacket id st.packets)
           size := st.size - h.size
           destroyQueue := st.destroyQueue ++ [id] })

/-- AllocHandle::send_action: the action offset is translated from
handle-relative to absolute by adding the handle's current offset, then
the action is appended to the FIFO modify queue. -/
def Allocator.sendAction (st : Allocator) (h : HandleRec) (a : ActionRec) :
    Allocator :=
  { st with actionQueue := st.actionQueue ++ [{ a with offset := a.offset + h.offset }] }

/-- BufferAlloc::update: drain the modify queue in FIFO order, invoking the
callback once per queued action.  The first component is the exact
sequence of callback invocations, in order. -/
def Allocator.update (st : Allocator) : List ActionRec × Allocator :=
  (st.actionQueue, { st with actionQueue := [] })

/-- Sending a list of actions through the same handle, one send_action
call per list element, in list order. -/
def Allocator.sendAll (st : Allocator) (h : HandleRec) :
    List ActionRec → Allocator
  | [] => st
  | a :: as' => (st.sendAction h a).sendAll h as'

/-- An allocate/free trace step. -/
inductive AllocOp where
  | alloc (id : String) (sz : Nat)
  | free (id : String)
deriving Repr, DecidableEq

/-- Apply one trace step (allocate discards the returned handle, free
discards the returned allocation, as in a state trace). -/
def Allocator.applyOp (st : Allocator) : AllocOp → Allocator
  | .alloc id sz => (st.allocate id sz).2
  | .free id => (st.free id).2

/-- Run an allocate/free trace from a starting state. -/
def Allocator.execOps (st : Allocator) : List AllocOp → Allocator
  | [] => st
  | op :: ops => (st.applyOp op).execOps ops

/-- A trace is id-fresh when every allocate step uses an id that is not
currently registered at the moment it runs. -/
def Allocator.freshOps (st : Allocator) : List AllocOp → Prop
  | [] => True
  | .alloc id sz :: ops =>
      findPacket id st.packets = none ∧ (st.applyOp (.alloc id sz)).freshOps ops
  | .free id :: ops => (st.applyOp (.free id)).freshOps ops

/-- Decidability of freshness of a trace, so witnesses can evaluate it. -/
def freshOpsDec : (st : Allocator) → (ops : List AllocOp) → Decidable (st.freshOps ops)
  | _, [] => .isTrue trivial
  | st, .alloc id sz :: ops =>
      have : Decidable ((st.applyOp (.alloc id sz)).freshOps ops) :=
        freshOpsDec _ ops
      instDecidableAnd
  | st, .free id :: ops => freshOpsDec (st.applyOp (.free id)) ops

instance (st : Allocator) (ops : List AllocOp) : Decidable (st.freshOps ops) :=
  freshOpsDec st ops

/-- Sum of the sizes of the registered regions. -/
def sumSizes (ps : List (String × HandleRec)) : Nat :=
  (ps.map (fun p => p.2.size)).sum

/-- The registered regions tile the address space contiguously starting
at acc: each region starts exactly where the previous one ended. -/
def tiles : Nat → List (String × HandleRec) → Prop
  | _, [] => True
  | acc, p :: ps => p.2.offset = acc ∧ tiles (acc + p.2.size) ps

/-- Every region in a tiling starting at acc has offset at least acc. -/
theorem tiles_offset_le {acc : Nat} {ps : List (String × HandleRec)}
    (h : tiles acc ps) : ∀ p ∈ ps, acc ≤ p.2.offset := by
  induction ps generalizing acc with
  | nil => intro p hp; cases hp
  | cons q qs ih =>
      obtain ⟨hq, hqs⟩ := h
      intro p hp
      rcases List.mem_cons.mp hp with rfl | hp
      · omega
      · have := ih hqs p hp
        omega

/-- A packet found by id in a tiling starting at acc has offset at least acc. -/
theorem tiles_findPacket_le {acc : Nat} {ps : List (String × HandleRec)}
    {id : String} {h : HandleRec}
    (ht : tiles acc ps) (hf : findPacket id ps = some h) : acc ≤ h.offset := by
  induction ps generalizing acc with
  | nil => cases hf
  | cons q qs ih =>
      obtain ⟨hq, hqs⟩ := ht
      by_cases hid : q.1 = id
      · simp [findPacket, hid] at hf
        subst hf
        omega
      · simp [findPacket, hid] at hf
        have := ih hqs hf
        omega

/-- Shifting a tiling that lives entirely at or above o + s left by s
yields a tiling starting s lower. -/
theorem tiles_shiftAfter {ps : List (String × HandleRec)} :
    ∀ {acc o s : Nat}, o + s ≤ acc → tiles acc ps →
      tiles (acc - s) (shiftAfter o s ps) := by
  induction ps with
  | nil => intro acc o s _ _; trivial
  | cons q qs ih =>
      intro acc o s hle ht
      obtain ⟨hq, hqs⟩ := ht
      simp only [shiftAfter, List.map_cons]
      refine ⟨?_, ?_⟩
      · by_cases hlt : o < q.2.offset
        · rw [if_pos hlt]
          simp [hq]
        · rw [if_neg hlt]
          omega
      · have hle2 : o + s ≤ acc + q.2.size := by omega
        have ih2 := ih hle2 hqs
        have heq : acc + q.2.size - s = acc - s + q.2.size := by omega
        rw [heq] at ih2
        by_cases hlt : o < q.2.offset
        · rw [if_pos hlt]
          simpa [shiftAfter] using ih2
        · rw [if_neg hlt]
          simpa [shiftAfter] using ih2

/-- Removing the packet found for an id and compacting the remainder
preserves the tiling (the core of free's correctness). -/
theorem tiles_free_aux :
    ∀ (ps : List (String × HandleRec)) (acc : Nat) (id : String) (h : HandleRec),
      findPacket id ps = some h → tiles acc ps →
      tiles acc (shiftAfter h.offset h.size (removePacket id ps)) := by
  intro ps
  induction ps with
  | nil => intro acc id h hf; cases hf
  | cons q qs ih =>
      intro acc id h hf ht
      obtain ⟨hq, hqs⟩ := ht
      by_cases hid : q.1 = id
      · simp [findPacket, hid] at hf
        subst hf
        simp [removePacket, hid]
        have := @tiles_shiftAfter qs (acc + q.2.size) q.2.offset q.2.size
          (by omega) hqs
        simpa [hq, Nat.add_sub_cancel] using this
      · simp [findPacket, hid] at hf
        have hof : acc + q.2.size ≤ h.offset := tiles_findPacket_le hqs hf
        have hnlt : ¬ h.offset < q.2.offset := by omega
        have hrem : removePacket id (q :: qs) = q :: removePacket id qs := by
          simp [removePacket, hid]
        rw [hrem]
        simp only [shiftAfter, List.map_cons, if_neg hnlt]
        refine ⟨hq, ?_⟩
        have ih2 := ih (acc + q.2.size) id h hf hqs
        simpa [shiftAfter] using ih2

/-- Removing a found packet removes exactly its size from the sum. -/
theorem sumSizes_removePacket {ps : List (String × HandleRec)}
    {id : String} {h : HandleRec} (hf : findPacket id ps = some h) :
    sumSizes (removePacket id ps) + h.size = sumSizes ps := by
  induction ps with
  | nil => cases hf
  | cons q qs ih =>
      by_cases hid : q.1 = id
      · simp [findPacket, hid] at hf
        subst hf
        simp [removePacket, hid, sumSizes]
        omega
      · simp [findPacket, hid] at hf
        have := ih hf
        simp [removePacket, hid, sumSizes] at this ⊢
        omega

/-- Compaction does not change region sizes, hence not the sum. -/
theorem sumSizes_shiftAfter (o s : Nat) (ps : List (String × HandleRec)) :
    sumSizes (shiftAfter o s ps) = sumSizes ps := by
  induction ps with
  | nil => rfl
  | cons q qs ih =>
      by_cases hlt : o < q.2.offset <;>
        simp [shiftAfter, sumSizes, hlt] at ih ⊢ <;> omega

/-- Inserting a fresh id appends the entry at the end of the list. -/
theorem insertPacket_fresh {ps : List (String × HandleRec)} {id : String}
    (hf : findPacket id ps = none) (h : HandleRec) :
    insertPacket id h ps = ps ++ [(id, h)] := by
  induction ps with
  | nil => rfl
  | cons q qs ih =>
      by_cases hid : q.1 = id
      · simp [findPacket, hid] at hf
      · simp [findPacket, hid] at hf
        simp [insertPacket, hid, ih hf]

/-- Concatenation of tilings: the second starts where the first ends. -/
theorem tiles_append {ps qs : List (String × HandleRec)} :
    ∀ {acc : Nat}, tiles acc ps → tiles (acc + sumSizes ps) qs →
      tiles acc (ps ++ qs) := by
  induction ps with
  | nil => intro acc _ h2; simpa [sumSizes] using h2
  | cons p ps' ih =>
      intro acc h1 h2
      obtain ⟨hp, hps⟩ := h1
      refine ⟨hp, ih hps ?_⟩
      have : acc + p.2.size + sumSizes ps' = acc + sumSizes (p :: ps') := by
        simp [sumSizes]; omega
      rw [this]
      exact h2

/-- Two registered regions do not overlap. -/
def regionsDisjoint (p q : String × HandleRec) : Prop :=
  p.2.offset + p.2.size ≤ q.2.offset ∨ q.2.offset + q.2.size ≤ p.2.offset

/-- A tiling is pairwise disjoint. -/
theorem tiles_pairwise {acc : Nat} {ps : List (String × HandleRec)}
    (h : tiles acc ps) : ps.Pairwise regionsDisjoint := by
  induction ps generalizing acc with
  | nil => exact List.Pairwise.nil
  | cons q qs ih =>
      obtain ⟨hq, hqs⟩ := h
      refine List.Pairwise.cons ?_ (ih hqs)
      intro p hp
      have := tiles_offset_le hqs p hp
      left
      omega

/-- The allocator invariant: the registered regions tile the address
space from 0 and their sizes sum to the recorded total size. -/
def AllocInv (st : Allocator) : Prop :=
  tiles 0 st.packets ∧ sumSizes st.packets = st.size

/-- The empty allocator satisfies the invariant. -/
theorem allocInv_empty : AllocInv Allocator.empty :=
  ⟨trivial, rfl⟩

/-- Sum of sizes distributes over concatenation. -/
theorem sumSizes_append (ps qs : List (String × HandleRec)) :
    sumSizes (ps ++ qs) = sumSizes ps + sumSizes qs := by
  simp [sumSizes]

/-- allocate with a fresh id preserves the invariant. -/
theorem allocInv_allocate {st : Allocator} {id : String} {sz : Nat}
    (hInv : AllocInv st) (hfresh : findPacket id st.packets = none) :
    AllocInv (st.allocate id sz).2 := by
  obtain ⟨ht, hs⟩ := hInv
  have hp : (st.allocate id sz).2.packets =
      st.packets ++ [(id, ⟨st.size, sz⟩)] := by
    simp [Allocator.allocate, insertPacket_fresh hfresh]
  have hsz : (st.allocate id sz).2.size = st.size + sz := rfl
  constructor
  · rw [hp]
    exact tiles_append ht (by simp [tiles, hs])
  · rw [hp, hsz, sumSizes_append, hs]
    simp [sumSizes]

/-- free preserves the invariant (for any id, found or not). -/
theorem allocInv_free {st : Allocator} {id : String}
    (hInv : AllocInv st) : AllocInv (st.free id).2 := by
  obtain ⟨ht, hs⟩ := hInv
  rcases hfind : findPacket id st.packets with _ | h
  · simpa [Allocator.free, hfind] using ⟨ht, hs⟩
  · constructor
    · simp [Allocator.free, hfind]
      exact tiles_free_aux st.packets 0 id h hfind ht
    · have hrem := sumSizes_removePacket hfind
      simp [Allocator.free, hfind, sumSizes_shiftAfter]
      omega

/-- Every id-fresh trace preserves the invariant. -/
theorem allocInv_execOps :
    ∀ (ops : List AllocOp) (st : Allocator),
      AllocInv st → st.freshOps ops → AllocInv (st.execOps ops) := by
  intro ops
  induction ops with
  | nil => intro st h _; exact h
  | cons op ops ih =>
      intro st h hfresh
      cases op with
      | alloc id sz =>
          obtain ⟨h1, h2⟩ := hfresh
          exact ih _ (allocInv_allocate h h1) h2
      | free id =>
          exact ih _ (allocInv_free h) hfresh

/-- C4 (amended): for every allocate/free trace from the empty allocator
in which each allocate uses an id that is not currently live, the
registered regions are pairwise non-overlapping and their sizes sum to
the allocator's size().  (The claim as frozen also allows traces that
reuse a live id; those violate the sum equation, see the
counterexample.) -/
theorem c4_alloc_free_invariant (ops : List AllocOp)
    (hfresh : Allocator.empty.freshOps ops) :
    (Allocator.empty.execOps ops).packets.Pairwise regionsDisjoint ∧
      sumSizes (Allocator.empty.execOps ops).packets =
        (Allocator.empty.execOps ops).size := by
  have h := allocInv_execOps ops Allocator.empty allocInv_empty hfresh
  exact ⟨tiles_pairwise h.1, h.2⟩

/-- Witness for C4: the spec scenario trace (mesh1 100, mesh2 50,
free mesh1) is id-fresh, and the invariant conclusion holds for it. -/
theorem c4_alloc_free_invariant_witness :
    Allocator.empty.freshOps
        [.alloc "mesh1" 100, .alloc "mesh2" 50, .free "mesh1"] ∧
      ((Allocator.empty.execOps
          [.alloc "mesh1" 100, .alloc "mesh2" 50, .free "mesh1"]).packets.Pairwise
            regionsDisjoint ∧
        sumSizes (Allocator.empty.execOps
            [.alloc "mesh1" 100, .alloc "mesh2" 50, .free "mesh1"]).packets =
          (Allocator.empty.execOps
            [.alloc "mesh1" 100, .alloc "mesh2" 50, .free "mesh1"]).size) :=
  ⟨by decide, c4_alloc_free_invariant _ (by decide)⟩

/-- Counterexample for C4 as frozen: reusing the still-live id "a"
overwrites the registered handle but still grows the total, so the sum
of registered sizes (5) differs from size() (15). -/
theorem c4_counterexample :
    let st := Allocator.empty.execOps [.alloc "a" 10, .alloc "a" 5]
    sumSizes st.packets = 5 ∧ st.size = 15 ∧ sumSizes st.packets ≠ st.size := by
  decide

/-- C5: for every allocator state and every live id whose region sits at
offset o with size s, after free(id) every remaining registered region
whose offset was greater than o has its offset reduced by exactly s and
keeps its size, and every remaining region whose offset was less than o
keeps both offset and size unchanged. -/
theorem c5_free_frame_effect (st : Allocator) (id : String) (h : HandleRec)
    (hf : findPacket id st.packets = some h) :
    ∀ k p, (k, p) ∈ removePacket id st.packets →
      (h.offset < p.offset →
        (k, (⟨p.offset - h.size, p.size⟩ : HandleRec)) ∈ (st.free id).2.packets) ∧
      (p.offset < h.offset → (k, p) ∈ (st.free id).2.packets) := by
  intro k p hmem
  have hpk : (st.free id).2.packets =
      shiftAfter h.offset h.size (removePacket id st.packets) := by
    simp [Allocator.free, hf]
  rw [hpk]
  constructor
  · intro hlt
    have := List.mem_map_of_mem
      (fun p : String × HandleRec =>
        if h.offset < p.2.offset then (p.1, (⟨p.2.offset - h.size, p.2.size⟩ : HandleRec)) else p)
      hmem
    simpa [shiftAfter, hlt] using this
  · intro hlt
    have hnlt : ¬ h.offset < p.offset := by omega
    have := List.mem_map_of_mem
      (fun p : String × HandleRec =>
        if h.offset < p.2.offset then (p.1, (⟨p.2.offset - h.size, p.2.size⟩ : HandleRec)) else p)
      hmem
    simpa [shiftAfter, hnlt] using this

/-- Witness for C5, the spec scenario: allocate mesh1 (offset 0, size 100)
then mesh2 (offset 100, size 50); freeing mesh1 moves mesh2 to offset 0
with size 50, and the allocator size becomes 50. -/
theorem c5_free_frame_effect_witness :
    (findPacket "mesh1"
        (Allocator.empty.execOps [.alloc "mesh1" 100, .alloc "mesh2" 50]).packets =
      some ⟨0, 100⟩) ∧
    (("mesh2", (⟨100, 50⟩ : HandleRec)) ∈
      removePacket "mesh1"
        (Allocator.empty.execOps [.alloc "mesh1" 100, .alloc "mesh2" 50]).packets) ∧
    (("mesh2", (⟨0, 50⟩ : HandleRec)) ∈
      ((Allocator.empty.execOps [.alloc "mesh1" 100, .alloc "mesh2" 50]).free
          "mesh1").2.packets) ∧
    ((Allocator.empty.execOps [.alloc "mesh1" 100, .alloc "mesh2" 50]).free
        "mesh1").2.size = 50 := by
  refine ⟨by decide, by decide, ?_, by decide⟩
  have := (c5_free_frame_effect
      (Allocator.empty.execOps [.alloc "mesh1" 100, .alloc "mesh2" 50])
      "mesh1" ⟨0, 100⟩ (by decide) "mesh2" ⟨100, 50⟩ (by decide)).1
  exact this (by decide)

/-- C6: send_action translates the action offset from handle-relative to
absolute by adding the handle's offset at send time; a later update
drains the queue and the callback observes exactly that absolute offset.
The appended (last) action observed by the callback sequence is the sent
action with offset handle.offset() + r. -/
theorem c6_send_action_absolute_offset (st : Allocator) (h : HandleRec)
    (r s tag : Nat) :
    ((st.sendAction h ⟨r, s, tag⟩).update).1 =
      st.actionQueue ++ [⟨h.offset + r, s, tag⟩] := by
  simp [Allocator.sendAction, Allocator.update, Nat.add_comm]

/-- Sending a list of actions appends their offset-translated versions to
the queue in order. -/
theorem sendAll_queue (h : HandleRec) :
    ∀ (as : List ActionRec) (st : Allocator),
      (st.sendAll h as).actionQueue =
        st.actionQueue ++
          as.map (fun a => ⟨a.offset + h.offset, a.size, a.tag⟩) := by
  intro as
  induction as with
  | nil => intro st; simp [Allocator.sendAll]
  | cons a as ih =>
      intro st
      rw [Allocator.sendAll, ih]
      simp [Allocator.sendAction]

/-- C7: sending N actions through the same handle and then calling update
once invokes the callback exactly N times, once per sent action and in
send order: starting from an empty queue, the callback invocation
sequence is precisely the sent list (offsets translated), so it has
length N and preserves order. -/
theorem c7_update_fifo (st : Allocator) (h : HandleRec)
    (as : List ActionRec) (hq : st.actionQueue = []) :
    ((st.sendAll h as).update).1 =
        as.map (fun a => ⟨a.offset + h.offset, a.size, a.tag⟩) ∧
      ((st.sendAll h as).update).1.length = as.length := by
  have := sendAll_queue h as st
  rw [hq] at this
  constructor
  · simpa [Allocator.update] using this
  · simp [Allocator.update, this]

/-- Witness for C7: three actions sent through a handle at offset 5 are
delivered as exactly three callback invocations in send order. -/
theorem c7_update_fifo_witness :
    ((Allocator.empty.sendAll ⟨5, 10⟩ [⟨0, 10, 1⟩, ⟨2, 3, 2⟩, ⟨4, 5, 3⟩]).update).1 =
        [⟨5, 10, 1⟩, ⟨7, 3, 2⟩, ⟨9, 5, 3⟩] ∧
      ((Allocator.empty.sendAll ⟨5, 10⟩ [⟨0, 10, 1⟩, ⟨2, 3, 2⟩, ⟨4, 5, 3⟩]).update).1.length = 3 := by
  have := c7_update_fifo Allocator.empty ⟨5, 10⟩
    [⟨0, 10, 1⟩, ⟨2, 3, 2⟩, ⟨4, 5, 3⟩] rfl
  exact ⟨by rw [this.1]; decide, this.2⟩

/-- BufferLocation from src/model: relative offset and size of a Node
within the Root's allocation. -/
structure BufferLocation where
  offset : Nat
  size : Nat
deriving Repr, DecidableEq

/-- ModelState from src/model (used by tree.rs and base.rs; the enum
declaration itself is not among the sources, its variants are exactly
those matched in tree.rs/base.rs and listed in the spec data model):
Dormant holds a SimpleGeometry, DormantIndexed an IndexedGeometry,
Awake an allocation handle, Destroyed is terminal.  Vertices are
modelled as Vec3 positions; the handle is the registered offset/size
record. -/
inductive ModelState where
  | dormant (g : SimpleGeometry Vec3)
  | dormantIndexed (g : IndexedGeometry Vec3)
  | awake (h : HandleRec)
  | destroyed
deriving Repr, DecidableEq

/-- TreeModel from src/model/tree.rs: a Root owns a ModelState, a cached
Transform and children; a Node owns a relative BufferLocation and
children.  The abstract context C is modelled as a point (Vec3) that the
transform ops act on, as in the repository's own test context. -/
inductive TreeModel where
  | root (state : ModelState) (transform : Transform)
      (subHandles : List TreeModel) (ctx : Vec3)
  | node (location : BufferLocation) (subHandles : List TreeModel) (ctx : Vec3)

/-- A transform delta: the argument of translate, rotate, or scale.  The
three Rust impls (TranslateModel / RotateModel / ScaleModel for
TreeModel) are structurally identical and differ only in the applied
delta, so they are embedded as one traversal parametrised by the delta. -/
inductive Delta where
  | translation (v : Vec3)
  | rotation (q : Quat)
  | scaling (s : Vec3)
deriving Repr, DecidableEq

/-- Action of a delta on a Vec3 (a vertex position or a context point):
translate adds, rotate conjugates by the quaternion, scale multiplies
component-wise — the per-vertex operations of src/vertex.rs. -/
def Vec3.applyDelta (p : Vec3) : Delta → Vec3
  | .translation v => p.add v
  | .rotation q => rotVec q p
  | .scaling s => p.mulv s

/-- Action of a delta on the cached Transform, from
src/model/transform.rs: translation is added, rotation is
pre-multiplied, scale is multiplied component-wise. -/
def Transform.applyDelta (t : Transform) : Delta → Transform
  | .translation v => t.translate v
  | .rotation q => t.rotate q
  | .scaling s => t.scaleBy s

/-- Panic message of the dead-handle arm for each operation, from the
panic strings in src/model/tree.rs. -/
def Delta.deadMsg : Delta → String
  | .translation _ => "Cannot translate a dead handle"
  | .rotation _ => "Cannot rotate a dead handle"
  | .scaling _ => "Cannot scale a dead handle"

/-- Applying a delta to a ModelState geometry in place (the Dormant and
DormantIndexed arms of the transform ops: every vertex is transformed). -/
def ModelState.applyDelta (st : ModelState) (d : Delta) : ModelState :=
  match st with
  | .dormant g => .dormant ⟨g.vertices.map (fun p => p.applyDelta d)⟩
  | .dormantIndexed g =>
      .dormantIndexed ⟨g.vertices.map (fun p => p.applyDelta d), g.indices⟩
  | .awake h => .awake h
  | .destroyed => .destroyed

/-- Record of one ModifyAction enqueued during a tree transform call:
the handle-relative offset it was created with, the absolute offset after
send_action added the handle's offset, and the size. -/
structure EnqueuedAction where
  relOffset : Nat
  absOffset : Nat
  size : Nat
deriving Repr, DecidableEq

/-- Result of a transform call on a (sub)tree: the tree as left behind by
the call (in-place lock-guarded mutations are kept even when the call
panics), the ModifyActions enqueued, in order, and the panic outcome
(none = returned normally). -/
structure ApplyResult where
  tree : TreeModel
  actions : List EnqueuedAction
  panic : Option String

/-- Result of a transform call on a list of children, processed in order
with the iteration stopping at the first panic. -/
structure ApplyListResult where
  trees : List TreeModel
  actions : List EnqueuedAction
  panic : Option String

mutual

/-- The transform traversal of src/model/tree.rs (TranslateModel,
RotateModel, ScaleModel for TreeModel, which differ only in the delta):
on a Root, first the cached Transform is updated by the delta, then the
state is inspected: Awake builds a ModifyAction at relative offset 0
covering handle.size() and sends it through the handle (absolute offset
= 0 + handle.offset()), then the ctx and all children receive the same
delta; Dormant/DormantIndexed transform the geometry in place, then ctx
and children; Destroyed panics (after the Transform update, which has
already happened).  On a Node, the ctx is updated and the children
receive the same delta; a Node enqueues nothing itself. -/
def treeApply (d : Delta) : TreeModel → ApplyResult
  | .root st tf subs ctx =>
      let tf2 := tf.applyDelta d
      match st with
      | .awake h =>
          let act : EnqueuedAction := ⟨0, 0 + h.offset, h.size⟩
          let r := treeApplyList d subs
          ⟨.root (.awake h) tf2 r.trees (ctx.applyDelta d), act :: r.actions, r.panic⟩
      | .dormant g =>
          let r := treeApplyList d subs
          ⟨.root ((ModelState.dormant g).applyDelta d) tf2 r.trees (ctx.applyDelta d),
            r.actions, r.panic⟩
      | .dormantIndexed g =>
          let r := treeApplyList d subs
          ⟨.root ((ModelState.dormantIndexed g).applyDelta d) tf2 r.trees (ctx.applyDelta d),
            r.actions, r.panic⟩
      | .destroyed =>
          ⟨.root .destroyed tf2 subs ctx, [], some d.deadMsg⟩
  | .node loc subs ctx =>
      let r := treeApplyList d subs
      ⟨.node loc r.trees (ctx.applyDelta d), r.actions, r.panic⟩

/-- Children are visited left to right; a panic in a child aborts the
iteration, leaving later children untouched. -/
def treeApplyList (d : Delta) : List TreeModel → ApplyListResult
  | [] => ⟨[], [], none⟩
  | t :: ts =>
      let r := treeApply d t
      match r.panic with
      | some msg => ⟨r.tree :: ts, r.actions, some msg⟩
      | none =>
          let rs := treeApplyList d ts
          ⟨r.tree :: rs.trees, r.actions ++ rs.actions, rs.panic⟩

end

/-- Model::wake for TreeModel (src/model/tree.rs, identical for the
static and dynamic handle impls): a Root's state is overwritten with
Awake(handle) with no inspection of the previous state; waking a Node
panics. -/
def treeWake (t : TreeModel) (h : HandleRec) : TreeModel × Option String :=
  match t with
  | .root _ tf subs ctx => (.root (.awake h) tf subs ctx, none)
  | .node loc subs ctx => (.node loc subs ctx, some "Cannot make alive a node")

/-- Model::destroy for TreeModel with a dynamic handle: a Root in Awake
state sends the handle's destroy request and becomes Destroyed; any
other Root state panics; destroying a Node panics. -/
def treeDestroy (t : TreeModel) : TreeModel × Option String :=
  match t with
  | .root (.awake _) tf subs ctx => (.root .destroyed tf subs ctx, none)
  | .root st tf subs ctx => (.root st tf subs ctx, some "Cannot destroy a dead handle")
  | .node loc subs ctx => (.node loc subs ctx, some "Cannot destroy a node")

mutual

/-- A tree whose every node is a Node variant (no Root below). -/
def isNodeOnly : TreeModel → Bool
  | .root _ _ _ _ => false
  | .node _ subs _ => allNodeOnly subs

/-- All trees in the list are node-only. -/
def allNodeOnly : List TreeModel → Bool
  | [] => true
  | t :: ts => isNodeOnly t && allNodeOnly ts

end

mutual

/-- All context points of a tree, root first, children in order. -/
def ctxs : TreeModel → List Vec3
  | .root _ _ subs ctx => ctx :: ctxsList subs
  | .node _ subs ctx => ctx :: ctxsList subs

/-- All context points of a list of trees. -/
def ctxsList : List TreeModel → List Vec3
  | [] => []
  | t :: ts => ctxs t ++ ctxsList ts

end

/-- Model::state observed as data: the ModelState of a Root; a Node has
none (the source panics with Cannot get state from node). -/
def rootState : TreeModel → Option ModelState
  | .root st _ _ _ => some st
  | .node _ _ _ => none

/-- The cached Transform of a Root; a Node has none (only Roots carry a
Transform in src/model/tree.rs). -/
def rootTransform : TreeModel → Option Transform
  | .root _ tf _ _ => some tf
  | .node _ _ _ => none

mutual

/-- A node-only subtree contributes no ModifyActions and never panics
under a transform call, and every context in it receives the delta. -/
theorem nodeOnly_apply (d : Delta) (t : TreeModel) (h : isNodeOnly t = true) :
    (treeApply d t).actions = [] ∧ (treeApply d t).panic = none ∧
      ctxs (treeApply d t).tree = (ctxs t).map (fun c => c.applyDelta d) :=
  match t with
  | .root _ _ _ _ => by simp [isNodeOnly] at h
  | .node loc subs ctx => by
      have h2 : allNodeOnly subs = true := by simpa [isNodeOnly] using h
      have ih := nodeOnlyList_apply d subs h2
      simp [treeApply, ctxs, ih.1, ih.2.1, ih.2.2]

/-- List version of nodeOnly_apply. -/
theorem nodeOnlyList_apply (d : Delta) (ts : List TreeModel)
    (h : allNodeOnly ts = true) :
    (treeApplyList d ts).actions = [] ∧ (treeApplyList d ts).panic = none ∧
      ctxsList (treeApplyList d ts).trees =
        (ctxsList ts).map (fun c => c.applyDelta d) :=
  match ts with
  | [] => by simp [treeApplyList, ctxsList]
  | t :: ts2 => by
      have h1 : isNodeOnly t = true := by
        simp [allNodeOnly] at h
        exact h.1
      have h2 : allNodeOnly ts2 = true := by
        simp [allNodeOnly] at h
        exact h.2
      have iht := nodeOnly_apply d t h1
      have ihts := nodeOnlyList_apply d ts2 h2
      simp [treeApplyList, ctxsList, iht.1, iht.2.1, iht.2.2,
        ihts.1, ihts.2.1, ihts.2.2]

end

/-- C2 (amended): a transform call on an Awake Root recurses into every
child with the same delta (every context point in the tree receives the
delta), but the child Nodes do NOT enqueue ModifyActions of their own:
the node-only children contribute no actions at all, and the only action
enqueued by the whole call is the Root's single action at relative
offset 0 covering the handle's full size. -/
theorem c2_children_recurse_without_enqueue (d : Delta) (h : HandleRec)
    (tf : Transform) (subs : List TreeModel) (ctx : Vec3)
    (hn : allNodeOnly subs = true) :
    (treeApplyList d subs).actions = [] ∧
      (treeApplyList d subs).panic = none ∧
      ctxs (treeApply d (.root (.awake h) tf subs ctx)).tree =
        (ctxs (.root (.awake h) tf subs ctx)).map (fun c => c.applyDelta d) ∧
      (treeApply d (.root (.awake h) tf subs ctx)).actions =
        [⟨0, h.offset, h.size⟩] := by
  have hs := nodeOnlyList_apply d subs hn
  refine ⟨hs.1, hs.2.1, ?_, ?_⟩
  · simp [treeApply, ctxs, hs.2.2]
  · simp [treeApply, hs.1]

/-- Witness for C2's amended theorem at a concrete tree with one child
Node covering the sub-range at offset 3, size 3. -/
theorem c2_children_recurse_without_enqueue_witness :
    allNodeOnly [TreeModel.node ⟨3, 3⟩ [] ⟨0, 0, 0⟩] = true ∧
      ((treeApplyList (.translation ⟨1, 0, 0⟩)
          [TreeModel.node ⟨3, 3⟩ [] ⟨0, 0, 0⟩]).actions = [] ∧
        (treeApplyList (.translation ⟨1, 0, 0⟩)
          [TreeModel.node ⟨3, 3⟩ [] ⟨0, 0, 0⟩]).panic = none ∧
        ctxs (treeApply (.translation ⟨1, 0, 0⟩)
            (.root (.awake ⟨0, 6⟩) Transform.identity
              [TreeModel.node ⟨3, 3⟩ [] ⟨0, 0, 0⟩] ⟨0, 0, 0⟩)).tree =
          (ctxs (.root (.awake ⟨0, 6⟩) Transform.identity
              [TreeModel.node ⟨3, 3⟩ [] ⟨0, 0, 0⟩] ⟨0, 0, 0⟩)).map
            (fun c => c.applyDelta (.translation ⟨1, 0, 0⟩)) ∧
        (treeApply (.translation ⟨1, 0, 0⟩)
            (.root (.awake ⟨0, 6⟩) Transform.identity
              [TreeModel.node ⟨3, 3⟩ [] ⟨0, 0, 0⟩] ⟨0, 0, 0⟩)).actions =
          [⟨0, 0, 6⟩]) :=
  ⟨rfl, c2_children_recurse_without_enqueue (.translation ⟨1, 0, 0⟩) ⟨0, 6⟩
    Transform.identity [TreeModel.node ⟨3, 3⟩ [] ⟨0, 0, 0⟩] ⟨0, 0, 0⟩ rfl⟩

/-- Counterexample for C2 as frozen: translating an Awake Root (handle
offset 0, size 6) with one child Node at relative offset 3, size 3,
enqueues exactly one ModifyAction — the Root's, covering the full size 6
— and no action scoped to the child's sub-range exists, so the child did
not independently enqueue its own ModifyAction. -/
theorem c2_counterexample :
    (treeApply (.translation ⟨1, 0, 0⟩)
        (.root (.awake ⟨0, 6⟩) Transform.identity
          [TreeModel.node ⟨3, 3⟩ [] ⟨0, 0, 0⟩] ⟨0, 0, 0⟩)).actions =
      [⟨0, 0, 6⟩] ∧
      ¬ ∃ a ∈ (treeApply (.translation ⟨1, 0, 0⟩)
          (.root (.awake ⟨0, 6⟩) Transform.identity
            [TreeModel.node ⟨3, 3⟩ [] ⟨0, 0, 0⟩] ⟨0, 0, 0⟩)).actions,
        a.relOffset = 3 ∧ a.size = 3 := by
  exact ⟨rfl, by decide⟩

/-- C3 (amended): wake(handle) on a Root never inspects the current
state and never panics: from every state — Dormant, DormantIndexed,
Awake, and Destroyed alike — it overwrites the state with Awake(handle)
and returns normally.  Only waking a Node panics.  (tree.rs and base.rs
behave identically: both assign ModelState::Awake unconditionally.) -/
theorem c3_wake_overwrites_any_state (st : ModelState) (tf : Transform)
    (subs : List TreeModel) (ctx : Vec3) (h : HandleRec) :
    treeWake (.root st tf subs ctx) h = (.root (.awake h) tf subs ctx, none) ∧
      ∀ loc subs2 ctx2,
        (treeWake (.node loc subs2 ctx2) h).2 = some "Cannot make alive a node" :=
  ⟨rfl, fun _ _ _ => rfl⟩

/-- Counterexample for C3 as frozen: waking a Destroyed Root does not
panic — it returns normally and the state becomes Awake(handle). -/
theorem c3_counterexample :
    (treeWake (.root .destroyed Transform.identity [] ⟨0, 0, 0⟩) ⟨0, 3⟩).2 = none ∧
      rootState (treeWake (.root .destroyed Transform.identity [] ⟨0, 0, 0⟩) ⟨0, 3⟩).1 =
        some (.awake ⟨0, 3⟩) :=
  ⟨rfl, rfl⟩

/-- C8: a transform call on an Awake Root (with node-only children)
enqueues exactly one ModifyAction, at relative offset 0 covering the
handle's full size, and the cached Transform of the returned tree is
already the old transform composed with the delta — the update happens
within the call itself, with no involvement of the allocator's update
drain (treeApply never touches an Allocator value). -/
theorem c8_awake_transform_immediate (d : Delta) (h : HandleRec)
    (tf : Transform) (subs : List TreeModel) (ctx : Vec3)
    (hn : allNodeOnly subs = true) :
    (treeApply d (.root (.awake h) tf subs ctx)).actions =
        [⟨0, h.offset, h.size⟩] ∧
      rootTransform (treeApply d (.root (.awake h) tf subs ctx)).tree =
        some (tf.applyDelta d) ∧
      (treeApply d (.root (.awake h) tf subs ctx)).panic = none := by
  have hs := nodeOnlyList_apply d subs hn
  refine ⟨?_, ?_, ?_⟩
  · simp [treeApply, hs.1]
  · simp [treeApply, rootTransform]
  · simp [treeApply, hs.2.1]

/-- Witness for C8, following the spec scenario: after a dormant
translate by (1,0,0) the cached transform holds translation (1,0,0);
waking at handle (offset 0, size 3) and translating by (0,1,0) enqueues
the single full-range action (relative offset 0, absolute offset 0,
size 3) and the transform immediately reports cumulative translation
(1,1,0). -/
theorem c8_awake_transform_immediate_witness :
    allNodeOnly ([] : List TreeModel) = true ∧
      ((treeApply (.translation ⟨0, 1, 0⟩)
          (.root (.awake ⟨0, 3⟩) (Transform.identity.translate ⟨1, 0, 0⟩)
            [] ⟨1, 0, 0⟩)).actions = [⟨0, 0, 3⟩] ∧
        rootTransform (treeApply (.translation ⟨0, 1, 0⟩)
            (.root (.awake ⟨0, 3⟩) (Transform.identity.translate ⟨1, 0, 0⟩)
              [] ⟨1, 0, 0⟩)).tree =
          some ⟨⟨1, 1, 0⟩, ⟨0, 0, 0, 1⟩, ⟨1, 1, 1⟩⟩ ∧
        (treeApply (.translation ⟨0, 1, 0⟩)
            (.root (.awake ⟨0, 3⟩) (Transform.identity.translate ⟨1, 0, 0⟩)
              [] ⟨1, 0, 0⟩)).panic = none) := by
  have h := c8_awake_transform_immediate (.translation ⟨0, 1, 0⟩) ⟨0, 3⟩
    (Transform.identity.translate ⟨1, 0, 0⟩) [] ⟨1, 0, 0⟩ rfl
  refine ⟨rfl, h.1, ?_, h.2.2⟩
  rw [h.2.1]
  decide

/-- C10: a transform call on a Destroyed Root panics with the
dead-handle message, but only after the cached Transform has already
been composed with the delta; no action is enqueued and the children are
never visited, so the failed operation is observably non-atomic. -/
theorem c10_destroyed_transform_updates_then_panics (d : Delta)
    (tf : Transform) (subs : List TreeModel) (ctx : Vec3) :
    (treeApply d (.root .destroyed tf subs ctx)).panic = some d.deadMsg ∧
      rootTransform (treeApply d (.root .destroyed tf subs ctx)).tree =
        some (tf.applyDelta d) ∧
      (treeApply d (.root .destroyed tf subs ctx)).actions = [] :=
  ⟨rfl, rfl, rfl⟩
